import Mathlib

/-!
Verification of the `derive.rs` heatmap generator against its specification.

The development shallowly embeds the relevant parts of the source:

* `src/slippy.rs` — spherical-Mercator slippy-map projection (`to_tile`,
  `from_tile`) and the `Map` viewport with `Map::to_pixels`.  The Rust code
  computes with `f64`; the embedding models the arithmetic over the exact real
  numbers `ℝ`.
* `src/heat.rs` — the `PixelHeatmap` accumulation grid (`add_point`, `decay`,
  `as_image`), with `u32` counters modelled as `ℕ` (wraparound made explicit
  with `% 2^32` where the source can underflow).
* `src/activity.rs` — `Activity::project_to_screen` (projection through the
  `Heatmap` trait object followed by `Vec::dedup`).
* `src/osmbase.rs` — `Downloader::get`, modelled as a state transformer over
  an explicit file-system map together with a network oracle.
-/

namespace Derive

/-! ## Slippy-map projection (`src/slippy.rs`) -/

/-- Constant `TILE_SIZE` from `src/slippy.rs`. -/
def TILE_SIZE : ℕ := 256

/-- Embedding of `slippy::to_tile`: convert lon/lat coordinates to OSM tile
coordinates of the given zoom level.  `p.y().to_radians()` is `p.2 * (π/180)`,
`.tan().asinh()` is `Real.arsinh (Real.tan _)`. -/
noncomputable def to_tile (p : ℝ × ℝ) (zoom : ℕ) : ℝ × ℝ :=
  let n : ℝ := 2 ^ zoom
  (n * ((p.1 + 180) / 360),
   n * (1 - Real.arsinh (Real.tan (p.2 * (Real.pi / 180))) / Real.pi) * 0.5)

/-- Embedding of `slippy::from_tile`: convert OSM tile coordinates at the given
zoom level back to lon/lat.  `.sinh().atan().to_degrees()` is
`Real.arctan (Real.sinh _) * (180/π)`. -/
noncomputable def from_tile (p : ℝ × ℝ) (zoom : ℕ) : ℝ × ℝ :=
  let n : ℝ := 2 ^ zoom
  (p.1 / n * 360 - 180,
   Real.arctan (Real.sinh (Real.pi * (1 - 2 / n * p.2))) * (180 / Real.pi))


/-! ## The `Map` viewport (`src/slippy.rs`) -/

/-- Embedding of `geo_types::Rect<f64>`: `Rect::new` normalizes the two corner
arguments so that `min` is the componentwise minimum and `max` the
componentwise maximum. -/
structure RectR where
  min : ℝ × ℝ
  max : ℝ × ℝ

/-- Embedding of `Rect::new`. -/
noncomputable def RectR.new (c1 c2 : ℝ × ℝ) : RectR :=
  ⟨(Min.min c1.1 c2.1, Min.min c1.2 c2.2), (Max.max c1.1 c2.1, Max.max c1.2 c2.2)⟩

/-- Embedding of `geo`'s `Contains<Point<f64>> for Rect<f64>`: a rectangle
contains a point iff the point lies in its interior (strict inequalities; the
boundary is not contained). -/
def RectR.containsPt (r : RectR) (p : ℝ × ℝ) : Prop :=
  r.min.1 < p.1 ∧ p.1 < r.max.1 ∧ r.min.2 < p.2 ∧ p.2 < r.max.2

/-- Embedding of `slippy::Map`: viewport extents in tile coordinates and in
lon/lat, pixel size, zoom level. -/
structure Map where
  extends_tiled : RectR
  extends_coord : RectR
  size : ℕ × ℕ
  zoom : ℕ

/-- Embedding of `Map::from` (named `from'` because `from` is a Lean keyword):
project the center to tile space, build the tile-space rectangle of size
`(width/TILE_SIZE, height/TILE_SIZE)` centered there, and its geographic
equivalent through `from_tile` on the corners. -/
noncomputable def Map.from' (center_x center_y : ℝ) (width height : ℕ) (zoom : ℕ) : Map :=
  let tile_extends : ℝ × ℝ := ((width : ℝ) / TILE_SIZE, (height : ℝ) / TILE_SIZE)
  let center := to_tile (center_x, center_y) zoom
  let extends_tiled := RectR.new
    (center.1 + tile_extends.1 * 0.5, center.2 + tile_extends.2 * 0.5)
    (center.1 - tile_extends.1 * 0.5, center.2 - tile_extends.2 * 0.5)
  let extends_coord := RectR.new
    (from_tile extends_tiled.min zoom) (from_tile extends_tiled.max zoom)
  ⟨extends_tiled, extends_coord, (width, height), zoom⟩

/-- Embedding of `Map::pixel_size`. -/
def Map.pixel_size (m : Map) : ℕ × ℕ := m.size

/-- Rust's saturating `f64 as u32` cast: truncation toward zero, negative
values saturate to 0 and values at or above `u32::MAX` saturate to
`u32::MAX`.  On the nonnegative range this is the floor. -/
noncomputable def f64_as_u32 (x : ℝ) : ℕ := min (Int.toNat ⌊x⌋) (2 ^ 32 - 1)

open Classical in
/-- Embedding of `Map::to_pixels`: `None` when the rectangle-contains test on
the geographic extents fails, otherwise the tile-space offset from the
tile-space minimum scaled by `TILE_SIZE` and cast to `u32`. -/
noncomputable def Map.to_pixels (m : Map) (coord : ℝ × ℝ) : Option (ℕ × ℕ) :=
  if m.extends_coord.containsPt coord then
    some (f64_as_u32 (((to_tile coord m.zoom).1 - m.extends_tiled.min.1) * TILE_SIZE),
          f64_as_u32 (((to_tile coord m.zoom).2 - m.extends_tiled.min.2) * TILE_SIZE))
  else none

/-! ## The pixel accumulation grid (`src/heat.rs`) -/

/-- Rust's saturating `f64 as u8` cast: truncation toward zero, saturating at
0 and 255.  On the nonnegative range this is the floor capped at 255. -/
noncomputable def f64_as_u8 (x : ℝ) : ℕ := min (Int.toNat ⌊x⌋) 255

/-- `f64::log10`. -/
noncomputable def log10 (x : ℝ) : ℝ := Real.log x / Real.log 10

/-- Embedding of `heat::PixelHeatmap`: the dense counter vector (length
`width * height`), dimensions, running maximum, and the overlay flags. -/
structure PixelHeatmap where
  heatmap : List ℕ
  height : ℕ
  width : ℕ
  max_value : ℕ
  render_date : Bool
  render_title : Bool

/-- Embedding of `PixelHeatmap::from` (named `from'` because `from` is a Lean
keyword).  The source reads `(width, height) = map.pixel_size()` and keeps the
map for projection only; the grid model takes the pixel size directly. -/
def PixelHeatmap.from' (width height : ℕ) (render_date render_title : Bool) : PixelHeatmap :=
  { heatmap := List.replicate (width * height) 0
    height := height
    width := width
    max_value := 0
    render_date := render_date
    render_title := render_title }

/-- Embedding of `PixelHeatmap::get_pixel_mut`: `None` when the point is out
of grid bounds, otherwise the row-major index `x + y * width` into the counter
vector. -/
def PixelHeatmap.get_pixel_index (s : PixelHeatmap) (point : ℕ × ℕ) : Option ℕ :=
  if s.width ≤ point.1 ∨ s.height ≤ point.2 then none
  else some (point.1 + point.2 * s.width)

/-- `u32` wrapping increment: the value of `*px += 1` in a release build,
where the addition wraps modulo `2^32`. -/
def u32_wrapping_add_one (px : ℕ) : ℕ := (px + 1) % 2 ^ 32

/-- `u32` checked increment: `none` models the overflow panic of `*px += 1`
in a debug build at `u32::MAX`. -/
def u32_checked_add_one (px : ℕ) : Option ℕ :=
  if px + 1 < 2 ^ 32 then some (px + 1) else none

/-- Embedding of `PixelHeatmap::add_point`: increment the `u32` counter at
the point (wrapping modulo `2^32`, the release-build semantics of
`*px += 1`; a debug build would instead panic at `u32::MAX`, the
`u32_checked_add_one` case), then raise `max_value` to the new count.  A
`none` result models the two fatal paths: `.unwrap()` on an out-of-bounds
point, and vector indexing past the counter array (impossible while the
length invariant holds). -/
def PixelHeatmap.add_point (s : PixelHeatmap) (point : ℕ × ℕ) : Option PixelHeatmap :=
  match s.get_pixel_index point with
  | none => none
  | some idx =>
    if hidx : idx < s.heatmap.length then
      let px := u32_wrapping_add_one (s.heatmap.get ⟨idx, hidx⟩)
      some { s with heatmap := s.heatmap.set idx px, max_value := Max.max s.max_value px }
    else none

/-- A sequence of `add_point` calls, in order; `none` as soon as one call
hits a fatal path. -/
def PixelHeatmap.runAdds (s : PixelHeatmap) : List (ℕ × ℕ) → Option PixelHeatmap
  | [] => some s
  | p :: ps =>
    match s.add_point p with
    | none => none
    | some s' => s'.runAdds ps

/-- `u32` wrapping subtraction of 1: the value of `max_value -= 1` in a
release build, where the subtraction wraps modulo `2^32`. -/
def u32_wrapping_sub_one (m : ℕ) : ℕ := (m + (2 ^ 32 - 1)) % 2 ^ 32

/-- `u32` checked subtraction of 1: `none` models the overflow panic of
`max_value -= 1` in a debug build. -/
def u32_checked_sub_one (m : ℕ) : Option ℕ := if m = 0 then none else some (m - 1)

/-- Embedding of `PixelHeatmap::decay` (`TileHeatmap::decay` is textually
identical on its own fields): decrement `max_value` by one unconditionally,
and subtract `amount` from every counter strictly greater than `amount`. -/
def PixelHeatmap.decay (s : PixelHeatmap) (amount : ℕ) : PixelHeatmap :=
  { s with
    max_value := u32_wrapping_sub_one s.max_value
    heatmap := s.heatmap.map (fun px => if amount < px then px - amount else px) }

/-- The intensity/alpha channel value `as_image` computes for a nonzero
counter: `(log10(count+1) / log10(max_value+1) * 250 + 6) as u8`. -/
noncomputable def heat_channel (count max_value : ℕ) : ℕ :=
  f64_as_u8 (log10 ((count : ℝ) + 1) / log10 ((max_value : ℝ) + 1) * 250 + 6)

/-- One RGBA sample of `PixelHeatmap::as_image`: `[0, 0, 0, 0]` for a zero
counter, `[heat, 0, 0, heat]` otherwise. -/
noncomputable def pixel_color (max_value count : ℕ) : ℕ × ℕ × ℕ × ℕ :=
  if count = 0 then (0, 0, 0, 0)
  else (heat_channel count max_value, 0, 0, heat_channel count max_value)

/-- Embedding of `PixelHeatmap::as_image`: the per-counter color map (the
source then flattens these RGBA samples into a `width × height` buffer; each
counter is mapped independently). -/
noncomputable def PixelHeatmap.as_image (s : PixelHeatmap) : List (ℕ × ℕ × ℕ × ℕ) :=
  s.heatmap.map (pixel_color s.max_value)

/-- Maximum of a list of counters (0 for the empty list). -/
def listMax (l : List ℕ) : ℕ := l.foldr Max.max 0

/-! ## Activities (`src/activity.rs`) -/

/-- Helper for `rustDedup`: drop elements equal to the previous kept element,
keeping the first element of each run of equal elements. -/
def rustDedupTail {α : Type} [DecidableEq α] (prev : α) : List α → List α
  | [] => []
  | b :: l => if b = prev then rustDedupTail prev l else b :: rustDedupTail b l

/-- Embedding of `Vec::dedup`: remove consecutive repeated elements, keeping
the first element of each run. -/
def rustDedup {α : Type} [DecidableEq α] : List α → List α
  | [] => []
  | a :: l => a :: rustDedupTail a l

/-- Embedding of `activity::Activity`: the name and the ordered track points.
The point type is the projection's input type (`Point<f64>` in the source);
the `date` field is passed through `project_to_screen` unchanged and is
omitted from the model. -/
structure Activity (P : Type) where
  name : String
  track_points : List P

/-- Embedding of `activity::ScreenActivity`. -/
structure ScreenActivity (C : Type) where
  name : String
  track_points : List C

/-- Embedding of `Activity::project_to_screen`: `filter_map` every track
point through the heatmap trait object's `project_to_screen` method (the
`proj` parameter), `Vec::dedup` the result, and fail when nothing remains. -/
def Activity.project_to_screen {P C : Type} [DecidableEq C]
    (a : Activity P) (proj : P → Option C) : Except String (ScreenActivity C) :=
  let track_points := rustDedup (a.track_points.filterMap proj)
  if track_points.isEmpty then Except.error "No visible track points"
  else Except.ok ⟨a.name, track_points⟩

/-! ## The tile downloader (`src/osmbase.rs`) -/

/-- Outcome of the HTTP request in `Downloader::get`: a success response, a
non-success status (with its reason), or a transport error. -/
inductive FetchOutcome where
  | success (body : String)
  | httpError (reason : String)
  | transportError (msg : String)

/-- Whether the outcome is one of the two failure paths. -/
def FetchOutcome.isFailure : FetchOutcome → Bool
  | .success _ => false
  | .httpError _ => true
  | .transportError _ => true

/-- File-system model for the cache directory: a path maps to
`some readable` when a file exists there (`readable = false` models an
unreadable or corrupt entry), and to `none` when no file exists.
`Path::exists` is `Option.isSome`; the readability flag is carried only so
that properties about unreadable entries can be stated — `Downloader::get`
itself never inspects it. -/
def FileSys : Type := String → Option Bool

/-- Point update of the file-system model. -/
def fsSet (fs : FileSys) (path : String) (v : Option Bool) : FileSys :=
  fun q => if q = path then v else fs q

/-- Embedding of `Downloader::get` for one URL.  `path_of` abstracts the
deterministic cache-path computation (SHA-256 hex of the resolved URL plus
the extension handling); `net` is the oracle for the HTTP request.  Returns
the result, the updated file system, and whether the network was used.
Control flow from the source: if `cached.exists()`, return `Ok(cached)`
without a request; otherwise `File::create(&cached)` makes a (readable,
empty) file appear at the path, the request body is streamed into it, and on
a non-success status or a transport error the file is removed with
`remove_file(cached)` and the error is returned. -/
def Downloader.get (path_of : String → String) (net : FetchOutcome)
    (fs : FileSys) (url : String) :
    Except String String × FileSys × Bool :=
  let cached := path_of url
  if (fs cached).isSome then (Except.ok cached, fs, false)
  else
    let fs1 := fsSet fs cached (some true)
    match net with
    | .success _ => (Except.ok cached, fs1, true)
    | .httpError reason => (Except.error reason, fsSet fs1 cached none, true)
    | .transportError msg => (Except.error msg, fsSet fs1 cached none, true)

/-! ## Verification predicates -/

/-- Invariant tying a grid state to the multiset of points accumulated so
far: correct dimensions and length, `max_value` equal to the maximum counter,
and every in-bounds cell's counter equal to the number of times that cell was
added. -/
def GridInv (w h : ℕ) (seen : List (ℕ × ℕ)) (s : PixelHeatmap) : Prop :=
  s.width = w ∧ s.height = h ∧ s.heatmap.length = w * h
  ∧ s.max_value = listMax s.heatmap
  ∧ ∀ q : ℕ × ℕ, q.1 < w → q.2 < h → s.heatmap.getD (q.1 + q.2 * w) 0 = seen.count q

/-! ## Lemmas -/

lemma two_pow_pos (z : ℕ) : (0 : ℝ) < 2 ^ z := by positivity

lemma two_pow_ne_zero (z : ℕ) : (2 : ℝ) ^ z ≠ 0 := ne_of_gt (two_pow_pos z)

/-- The latitude produced by `from_tile` is always strictly between -90 and 90
(it is `arctan` of something, scaled by `180/π`). -/
lemma from_tile_lat_bounds (p : ℝ × ℝ) (z : ℕ) :
    -90 < (from_tile p z).2 ∧ (from_tile p z).2 < 90 := by
  have hπ : (0 : ℝ) < Real.pi := Real.pi_pos
  have hs : (0 : ℝ) < 180 / Real.pi := by positivity
  have h1 := Real.arctan_lt_pi_div_two (Real.sinh (Real.pi * (1 - 2 / 2 ^ z * p.2)))
  have h2 := Real.neg_pi_div_two_lt_arctan (Real.sinh (Real.pi * (1 - 2 / 2 ^ z * p.2)))
  constructor
  · show -90 < Real.arctan _ * (180 / Real.pi)
    have := mul_lt_mul_of_pos_right h2 hs
    calc (-90 : ℝ) = -(Real.pi / 2) * (180 / Real.pi) := by
          field_simp
          ring
        _ < _ := this
  · show Real.arctan _ * (180 / Real.pi) < 90
    have := mul_lt_mul_of_pos_right h1 hs
    calc Real.arctan _ * (180 / Real.pi) < Real.pi / 2 * (180 / Real.pi) := this
        _ = 90 := by
          rw [div_mul_div_comm]
          rw [div_eq_iff (by positivity)]
          ring

/-- The x-coordinate of `from_tile` is strictly monotone in the tile x. -/
lemma from_tile_x_lt (z : ℕ) {a b : ℝ} (c d : ℝ) (h : a < b) :
    (from_tile (a, c) z).1 < (from_tile (b, d) z).1 := by
  have hn : (0 : ℝ) < 2 ^ z := two_pow_pos z
  show a / 2 ^ z * 360 - 180 < b / 2 ^ z * 360 - 180
  gcongr

/-- The y-coordinate of `from_tile` is strictly antitone in the tile y. -/
lemma from_tile_y_lt (z : ℕ) {a b : ℝ} (c d : ℝ) (h : a < b) :
    (from_tile (c, b) z).2 < (from_tile (d, a) z).2 := by
  have hn : (0 : ℝ) < 2 ^ z := two_pow_pos z
  have hπ : (0 : ℝ) < Real.pi := Real.pi_pos
  show Real.arctan (Real.sinh (Real.pi * (1 - 2 / 2 ^ z * b))) * (180 / Real.pi) <
    Real.arctan (Real.sinh (Real.pi * (1 - 2 / 2 ^ z * a))) * (180 / Real.pi)
  have hinner : Real.pi * (1 - 2 / 2 ^ z * b) < Real.pi * (1 - 2 / 2 ^ z * a) := by
    have : 2 / (2 : ℝ) ^ z * a < 2 / 2 ^ z * b := by
      have h2 : (0 : ℝ) < 2 / 2 ^ z := by positivity
      exact (mul_lt_mul_left h2).mpr h
    nlinarith
  have := Real.arctan_strictMono (Real.sinh_lt_sinh.mpr hinner)
  have hs : (0 : ℝ) < 180 / Real.pi := by positivity
  exact mul_lt_mul_of_pos_right this hs

/-- Round trip `from_tile (to_tile p z) z = p` for Mercator-valid latitudes. -/
lemma from_tile_to_tile (p : ℝ × ℝ) (z : ℕ) (h1 : -90 < p.2) (h2 : p.2 < 90) :
    from_tile (to_tile p z) z = p := by
  have hn : (2 : ℝ) ^ z ≠ 0 := two_pow_ne_zero z
  have hπ : Real.pi ≠ 0 := Real.pi_ne_zero
  have hπ0 : (0 : ℝ) < Real.pi := Real.pi_pos
  unfold from_tile to_tile
  simp only
  apply Prod.ext
  · show 2 ^ z * ((p.1 + 180) / 360) / 2 ^ z * 360 - 180 = p.1
    field_simp
    ring
  · show Real.arctan (Real.sinh (Real.pi *
      (1 - 2 / 2 ^ z * (2 ^ z * (1 - Real.arsinh (Real.tan (p.2 * (Real.pi / 180))) / Real.pi) * 0.5))))
      * (180 / Real.pi) = p.2
    have hin : Real.pi *
        (1 - 2 / 2 ^ z * (2 ^ z * (1 - Real.arsinh (Real.tan (p.2 * (Real.pi / 180))) / Real.pi) * 0.5))
        = Real.arsinh (Real.tan (p.2 * (Real.pi / 180))) := by
      field_simp
      ring
    rw [hin, Real.sinh_arsinh]
    have hlo : -(Real.pi / 2) < p.2 * (Real.pi / 180) := by
      have : (-90 : ℝ) * (Real.pi / 180) < p.2 * (Real.pi / 180) := by
        have : (0 : ℝ) < Real.pi / 180 := by positivity
        exact mul_lt_mul_of_pos_right h1 this
      calc -(Real.pi / 2) = (-90 : ℝ) * (Real.pi / 180) := by ring
        _ < _ := this
    have hhi : p.2 * (Real.pi / 180) < Real.pi / 2 := by
      have : p.2 * (Real.pi / 180) < (90 : ℝ) * (Real.pi / 180) := by
        have : (0 : ℝ) < Real.pi / 180 := by positivity
        exact mul_lt_mul_of_pos_right h2 this
      calc p.2 * (Real.pi / 180) < (90 : ℝ) * (Real.pi / 180) := this
        _ = Real.pi / 2 := by ring
    rw [Real.arctan_tan hlo hhi]
    field_simp

/-- The y-coordinate of `to_tile` is strictly antitone in the latitude, on the
Mercator-valid range (-90, 90). -/
lemma to_tile_y_lt (z : ℕ) {a b : ℝ} (c d : ℝ) (ha : -90 < a) (hb : b < 90) (h : a < b) :
    (to_tile (c, b) z).2 < (to_tile (d, a) z).2 := by
  have hn : (0 : ℝ) < 2 ^ z := two_pow_pos z
  have hπ : (0 : ℝ) < Real.pi := Real.pi_pos
  show 2 ^ z * (1 - Real.arsinh (Real.tan (b * (Real.pi / 180))) / Real.pi) * 0.5 <
    2 ^ z * (1 - Real.arsinh (Real.tan (a * (Real.pi / 180))) / Real.pi) * 0.5
  have hs : (0 : ℝ) < Real.pi / 180 := by positivity
  have hmem : ∀ x : ℝ, -90 < x → x < 90 →
      x * (Real.pi / 180) ∈ Set.Ioo (-(Real.pi / 2)) (Real.pi / 2) := by
    intro x hx1 hx2
    constructor
    · calc -(Real.pi / 2) = (-90 : ℝ) * (Real.pi / 180) := by ring
        _ < x * (Real.pi / 180) := mul_lt_mul_of_pos_right hx1 hs
    · calc x * (Real.pi / 180) < (90 : ℝ) * (Real.pi / 180) := mul_lt_mul_of_pos_right hx2 hs
        _ = Real.pi / 2 := by ring
  have htan : Real.tan (a * (Real.pi / 180)) < Real.tan (b * (Real.pi / 180)) :=
    Real.strictMonoOn_tan (hmem a ha (lt_trans h hb)) (hmem b (lt_trans ha h) hb)
      (mul_lt_mul_of_pos_right h hs)
  have harsinh := Real.arsinh_lt_arsinh.mpr htan
  have hdiv : Real.arsinh (Real.tan (a * (Real.pi / 180))) / Real.pi <
      Real.arsinh (Real.tan (b * (Real.pi / 180))) / Real.pi := by gcongr
  nlinarith [mul_pos hn (sub_pos.mpr hdiv)]

/-- Round trip `to_tile (from_tile t z) z = t`, unconditionally. -/
lemma to_tile_from_tile (t : ℝ × ℝ) (z : ℕ) :
    to_tile (from_tile t z) z = t := by
  have hn : (2 : ℝ) ^ z ≠ 0 := two_pow_ne_zero z
  have hπ : Real.pi ≠ 0 := Real.pi_ne_zero
  unfold from_tile to_tile
  simp only
  apply Prod.ext
  · show 2 ^ z * ((t.1 / 2 ^ z * 360 - 180 + 180) / 360) = t.1
    field_simp
    ring
  · show 2 ^ z * (1 - Real.arsinh (Real.tan
        (Real.arctan (Real.sinh (Real.pi * (1 - 2 / 2 ^ z * t.2))) * (180 / Real.pi) * (Real.pi / 180)))
        / Real.pi) * 0.5 = t.2
    have harg : Real.arctan (Real.sinh (Real.pi * (1 - 2 / 2 ^ z * t.2))) * (180 / Real.pi)
        * (Real.pi / 180)
        = Real.arctan (Real.sinh (Real.pi * (1 - 2 / 2 ^ z * t.2))) := by
      field_simp
    rw [harg, Real.tan_arctan, Real.arsinh_sinh]
    field_simp
    ring



/-- C5: for every zoom level and every (lon, lat) with latitude in the
Mercator-valid range, `from_tile (to_tile (lon, lat) z) z = (lon, lat)`:
the projection round-trip law, with the `f64` arithmetic modelled as exact
real arithmetic (the equality is exact, hence within any tolerance). -/
theorem to_tile_from_tile_roundtrip (z : ℕ) (lon lat : ℝ)
    (h1 : -90 < lat) (h2 : lat < 90) :
    from_tile (to_tile (lon, lat) z) z = (lon, lat) :=
  from_tile_to_tile (lon, lat) z h1 h2

/-- C5 witness: the round trip at zoom 12 and the origin. -/
theorem to_tile_from_tile_roundtrip_witness :
    ((-90 : ℝ) < 0 ∧ (0 : ℝ) < 90) ∧ from_tile (to_tile (0, 0) 12) 12 = (0, 0) :=
  ⟨⟨by norm_num, by norm_num⟩,
   to_tile_from_tile_roundtrip 12 0 0 (by norm_num) (by norm_num)⟩


/-- `rustDedupTail` together with its previous element has no two adjacent
equal elements. -/
lemma rustDedupTail_chain {α : Type} [DecidableEq α] (l : List α) (prev : α) :
    List.Chain' (· ≠ ·) (prev :: rustDedupTail prev l) := by
  induction l generalizing prev with
  | nil => simp [rustDedupTail]
  | cons b l ih =>
    by_cases hb : b = prev
    · simpa [rustDedupTail, hb] using ih prev
    · rw [rustDedupTail, if_neg hb, List.chain'_cons]
      exact ⟨fun h => hb h.symm, ih b⟩

/-- The output of `rustDedup` has no two adjacent equal elements. -/
lemma rustDedup_chain {α : Type} [DecidableEq α] (l : List α) :
    List.Chain' (· ≠ ·) (rustDedup l) := by
  cases l with
  | nil => simp [rustDedup]
  | cons a l => exact rustDedupTail_chain l a

/-- Unfolding lemma: `getD` through the `decay` counter map. -/
lemma getD_map_decay (l : List ℕ) (a i : ℕ) :
    (l.map (fun px => if a < px then px - a else px)).getD i 0
    = if a < l.getD i 0 then l.getD i 0 - a else l.getD i 0 := by
  simp only [List.getD_eq_getElem?_getD, List.getElem?_map]
  cases h : l[i]? with
  | none => simp
  | some v => simp

/-! ## C1: projection followed by dedup -/

/-- C1 counterexample: an activity whose points project (through the heatmap
trait object's `project_to_screen`, here the always-inside projection) to the
cell sequence `[A, A, B, A, C]` yields the screen sequence `[A, B, A, C]`:
the cell `A` is fed to the grid twice, because `Vec::dedup` removes only
consecutive duplicates, so the claim that exactly the set `{A, B, C}` is
produced (at most one point per distinct cell) is false. -/
theorem project_to_screen_counterexample :
    Activity.project_to_screen
        ⟨"a", [((0 : ℕ), (0 : ℕ)), (0, 0), (1, 1), (0, 0), (2, 2)]⟩ (fun c => some c)
      = Except.ok ⟨"a", [(0, 0), (1, 1), (0, 0), (2, 2)]⟩
    ∧ List.count ((0 : ℕ), (0 : ℕ)) [((0 : ℕ), (0 : ℕ)), (1, 1), (0, 0), (2, 2)] = 2 :=
  ⟨rfl, rfl⟩

/-- C1 (amended): `Activity::project_to_screen` filters the points through
the heatmap's projection and then removes only *consecutive* duplicate screen
coordinates (`Vec::dedup`): no two adjacent output cells are equal, but a
cell revisited non-consecutively is fed to the grid once per visit run (for
projected cells `[A, A, B, A, C]` the output is `[A, B, A, C]`). -/
theorem project_to_screen_dedups_consecutive {P C : Type} [DecidableEq C]
    (a : Activity P) (proj : P → Option C) (s : ScreenActivity C)
    (h : a.project_to_screen proj = Except.ok s) :
    List.Chain' (· ≠ ·) s.track_points := by
  unfold Activity.project_to_screen at h
  by_cases he : (rustDedup (a.track_points.filterMap proj)).isEmpty
  · rw [if_pos he] at h
    cases h
  · rw [if_neg he] at h
    cases h
    exact rustDedup_chain _

/-- C1 witness for the amended theorem, at a concrete ok projection. -/
theorem project_to_screen_dedups_consecutive_witness :
    Activity.project_to_screen ⟨"a", [((0 : ℕ), (0 : ℕ)), (1, 1)]⟩ (fun c => some c)
      = Except.ok ⟨"a", [(0, 0), (1, 1)]⟩
    ∧ List.Chain' (· ≠ ·) ([((0 : ℕ), (0 : ℕ)), (1, 1)] : List (ℕ × ℕ)) :=
  ⟨rfl, project_to_screen_dedups_consecutive ⟨"a", [((0 : ℕ), (0 : ℕ)), (1, 1)]⟩
    (fun c => some c) ⟨"a", [(0, 0), (1, 1)]⟩ rfl⟩

/-! ## C2 and C10: decay -/

/-- C2: for every grid state and every amount, `decay(amount)` subtracts
`amount` from each counter strictly exceeding `amount`, leaves counters at or
below `amount` unchanged, and decrements `max_value` by exactly 1 regardless
of `amount` or the counters (under the `u32` non-underflow precondition on
`max_value` identified by C10). -/
theorem decay_spec (s : PixelHeatmap) (amount : ℕ)
    (h1 : 1 ≤ s.max_value) (h2 : s.max_value < 2 ^ 32) :
    (s.decay amount).max_value = s.max_value - 1
    ∧ ∀ i : ℕ, (s.decay amount).heatmap.getD i 0 =
        if amount < s.heatmap.getD i 0 then s.heatmap.getD i 0 - amount
        else s.heatmap.getD i 0 := by
  constructor
  · show u32_wrapping_sub_one s.max_value = s.max_value - 1
    unfold u32_wrapping_sub_one
    have h32 : (2 : ℕ) ^ 32 = 4294967296 := by norm_num
    rw [h32] at h2 ⊢
    omega
  · intro i
    exact getD_map_decay s.heatmap amount i

/-- C2 witness: `decay(2)` on counters `[0, 1, 2, 3, 10]` yields
`[0, 1, 2, 1, 8]` and decrements `max_value` from 10 to 9. -/
theorem decay_spec_witness :
    (PixelHeatmap.decay ⟨[0, 1, 2, 3, 10], 5, 1, 10, false, false⟩ 2).heatmap
      = [0, 1, 2, 1, 8]
    ∧ (PixelHeatmap.decay ⟨[0, 1, 2, 3, 10], 5, 1, 10, false, false⟩ 2).max_value = 10 - 1 :=
  ⟨rfl, (decay_spec ⟨[0, 1, 2, 3, 10], 5, 1, 10, false, false⟩ 2
    (by norm_num) (by norm_num)).1⟩

/-- C10: on a grid whose `max_value` is 0 (e.g. freshly constructed), the
`max_value -= 1` in `decay` underflows the `u32` subtraction: the checked
(debug) subtraction has no result and the wrapping (release) subtraction
yields `u32::MAX = 2^32 - 1`; under the unstated precondition
`max_value >= 1` the subtraction is safe and both agree with `max_value - 1`. -/
theorem decay_underflow (s : PixelHeatmap) (amount : ℕ) (h : s.max_value = 0) :
    (u32_checked_sub_one s.max_value = none
      ∧ (s.decay amount).max_value = 2 ^ 32 - 1)
    ∧ ∀ m : ℕ, 1 ≤ m → m < 2 ^ 32 →
        u32_checked_sub_one m = some (m - 1) ∧ u32_wrapping_sub_one m = m - 1 := by
  have h32 : (2 : ℕ) ^ 32 = 4294967296 := by norm_num
  refine ⟨⟨by simp [u32_checked_sub_one, h], ?_⟩, fun m hm1 hm2 => ⟨?_, ?_⟩⟩
  · show u32_wrapping_sub_one s.max_value = 2 ^ 32 - 1
    rw [h, u32_wrapping_sub_one]
    norm_num
  · rw [u32_checked_sub_one, if_neg (by omega)]
  · rw [h32] at hm2
    unfold u32_wrapping_sub_one
    rw [h32]
    omega

/-- C10 witness: a freshly constructed 2×2 grid has `max_value = 0`, `decay`
on it wraps `max_value` to `2^32 - 1`, and the safe case at `max_value = 7`. -/
theorem decay_underflow_witness :
    (PixelHeatmap.from' 2 2 false false).max_value = 0
    ∧ ((u32_checked_sub_one (PixelHeatmap.from' 2 2 false false).max_value = none
        ∧ ((PixelHeatmap.from' 2 2 false false).decay 3).max_value = 2 ^ 32 - 1)
      ∧ (1 ≤ 7 → 7 < 2 ^ 32 →
          u32_checked_sub_one 7 = some (7 - 1) ∧ u32_wrapping_sub_one 7 = 7 - 1)) :=
  ⟨rfl, (decay_underflow (PixelHeatmap.from' 2 2 false false) 3 rfl).1,
    fun _ _ => (decay_underflow (PixelHeatmap.from' 2 2 false false) 3 rfl).2 7
      (by norm_num) (by norm_num)⟩

/-! ## C3 and C9: the tile downloader -/

/-- On a cache miss, `Downloader::get` uses the network, whatever the
outcome. -/
lemma get_network_of_miss (path_of : String → String) (net : FetchOutcome)
    (fs : FileSys) (url : String) (hmiss : fs (path_of url) = none) :
    (Downloader.get path_of net fs url).2.2 = true := by
  simp only [Downloader.get, hmiss, Option.isSome_none, Bool.false_eq_true, if_false]
  cases net <;> rfl

/-- On a cache miss with a failing fetch, no file remains at the cache path. -/
lemma get_fail_no_file (path_of : String → String) (net : FetchOutcome)
    (fs : FileSys) (url : String)
    (hmiss : fs (path_of url) = none) (hfail : net.isFailure = true) :
    (Downloader.get path_of net fs url).2.1 (path_of url) = none := by
  simp only [Downloader.get, hmiss, Option.isSome_none, Bool.false_eq_true, if_false]
  cases net with
  | success body => simp [FetchOutcome.isFailure] at hfail
  | httpError reason => simp [fsSet]
  | transportError msg => simp [fsSet]

/-- C3: when the cache misses and the fetch fails (non-success status or
transport error), `Downloader::get` returns an error, leaves no file at the
computed cache path, and a subsequent call for the same URL against the
resulting file system attempts the network again. -/
theorem downloader_get_failure (path_of : String → String) (net : FetchOutcome)
    (fs : FileSys) (url : String)
    (hmiss : fs (path_of url) = none) (hfail : net.isFailure = true) :
    (Downloader.get path_of net fs url).1.isOk = false
    ∧ (Downloader.get path_of net fs url).2.1 (path_of url) = none
    ∧ (Downloader.get path_of net fs url).2.2 = true
    ∧ ∀ net2 : FetchOutcome,
        (Downloader.get path_of net2 (Downloader.get path_of net fs url).2.1 url).2.2
          = true := by
  refine ⟨?_, get_fail_no_file path_of net fs url hmiss hfail,
    get_network_of_miss path_of net fs url hmiss,
    fun net2 => get_network_of_miss path_of net2 _ url
      (get_fail_no_file path_of net fs url hmiss hfail)⟩
  simp only [Downloader.get, hmiss, Option.isSome_none, Bool.false_eq_true, if_false]
  cases net with
  | success body => simp [FetchOutcome.isFailure] at hfail
  | httpError reason => rfl
  | transportError msg => rfl

/-- C3 witness: a 404 on an empty cache at a concrete URL. -/
theorem downloader_get_failure_witness :
    ((fun _ => none : FileSys) ((fun u => u ++ ".png") "t") = none
      ∧ FetchOutcome.isFailure (.httpError "Not Found") = true)
    ∧ (Downloader.get (fun u => u ++ ".png") (.httpError "Not Found")
          (fun _ => none) "t").1.isOk = false
    ∧ (Downloader.get (fun u => u ++ ".png") (.httpError "Not Found")
          (fun _ => none) "t").2.1 ((fun u => u ++ ".png") "t") = none :=
  ⟨⟨rfl, rfl⟩,
    (downloader_get_failure (fun u => u ++ ".png") (.httpError "Not Found")
      (fun _ => none) "t" rfl rfl).1,
    (downloader_get_failure (fun u => u ++ ".png") (.httpError "Not Found")
      (fun _ => none) "t" rfl rfl).2.1⟩

/-- C9 counterexample: a file system holding an *unreadable* entry at the
computed cache path (`some false`).  `Downloader::get` only checks
`cached.exists()`, so it returns the unreadable entry as a cache hit without
any network request — refuting the claim that an unreadable entry fails over
to a refetch and that only readable entries are served from the cache. -/
theorem downloader_get_unreadable_counterexample :
    ((fun p => if p = "u.png" then some false else none : FileSys) "u.png" = some false)
    ∧ (Downloader.get (fun u => u ++ ".png") (.success "tile")
          (fun p => if p = "u.png" then some false else none) "u").1
        = Except.ok "u.png"
    ∧ (Downloader.get (fun u => u ++ ".png") (.success "tile")
          (fun p => if p = "u.png" then some false else none) "u").2.2 = false :=
  ⟨rfl, rfl, rfl⟩

/-- C9 (amended): `Downloader::get` returns the cached path without a network
request whenever a file *exists* at the computed cache path, readable or not
(the readability of the entry is never inspected); it falls back to the
network exactly when no file exists there. -/
theorem downloader_get_cache_exists (path_of : String → String) (net : FetchOutcome)
    (fs : FileSys) (url : String) :
    ((fs (path_of url)).isSome = true →
        Downloader.get path_of net fs url = (Except.ok (path_of url), fs, false))
    ∧ (fs (path_of url) = none → (Downloader.get path_of net fs url).2.2 = true) := by
  constructor
  · intro hhit
    simp only [Downloader.get, hhit, if_true]
  · intro hmiss
    exact get_network_of_miss path_of net fs url hmiss

/-- C9 witness for the amended theorem: an existing-but-unreadable entry is
served as a cache hit. -/
theorem downloader_get_cache_exists_witness :
    ((fun p => if p = "u.png" then some false else none : FileSys)
        ((fun u => u ++ ".png") "u")).isSome = true
    ∧ Downloader.get (fun u => u ++ ".png") (.success "tile")
        (fun p => if p = "u.png" then some false else none) "u"
      = (Except.ok ((fun u => u ++ ".png") "u"),
         (fun p => if p = "u.png" then some false else none : FileSys), false) :=
  ⟨rfl, (downloader_get_cache_exists (fun u => u ++ ".png") (.success "tile")
    (fun p => if p = "u.png" then some false else none) "u").1 rfl⟩


/-! ## C4: the max_value invariant of add_point -/

lemma listMax_cons (x : ℕ) (l : List ℕ) : listMax (x :: l) = Max.max x (listMax l) := rfl

lemma listMax_replicate_zero (n : ℕ) : listMax (List.replicate n 0) = 0 := by
  induction n with
  | zero => rfl
  | succ k ih => simp [List.replicate, listMax_cons, ih]

/-- Raising one entry to at least its current value raises the list maximum
to the max of the old maximum and the new value. -/
lemma listMax_set (l : List ℕ) (i v : ℕ) (hi : i < l.length)
    (hv : l.get ⟨i, hi⟩ ≤ v) :
    listMax (l.set i v) = Max.max (listMax l) v := by
  induction l generalizing i with
  | nil => simp at hi
  | cons x xs ih =>
    cases i with
    | zero =>
      simp only [List.get] at hv
      simp only [List.set, listMax_cons]
      omega
    | succ j =>
      simp only [List.length_cons] at hi
      simp only [List.get] at hv
      simp only [List.set, listMax_cons, ih j (Nat.lt_of_succ_lt_succ hi) hv]
      omega

/-- Row-major cell indexing is injective on in-bounds cells. -/
lemma cell_index_inj {w : ℕ} {p q : ℕ × ℕ} (hp : p.1 < w) (hq : q.1 < w)
    (h : p.1 + p.2 * w = q.1 + q.2 * w) : p = q := by
  have hmod : (p.1 + p.2 * w) % w = (q.1 + q.2 * w) % w := by rw [h]
  rw [Nat.add_mul_mod_self_right, Nat.add_mul_mod_self_right,
    Nat.mod_eq_of_lt hp, Nat.mod_eq_of_lt hq] at hmod
  have h2 : p.2 * w = q.2 * w := by omega
  have hw : 0 < w := Nat.lt_of_le_of_lt (Nat.zero_le _) hp
  exact Prod.ext hmod (Nat.eq_of_mul_eq_mul_right hw h2)

/-- In-bounds cells index into the counter vector. -/
lemma cell_index_lt {w h : ℕ} (x y : ℕ) (hp1 : x < w) (hp2 : y < h) :
    x + y * w < w * h := by
  have h1 : x + y * w < (y + 1) * w := by
    have he : (y + 1) * w = y * w + w := by ring
    omega
  have h2 : (y + 1) * w ≤ h * w := Nat.mul_le_mul_right w hp2
  have h3 : h * w = w * h := Nat.mul_comm h w
  omega

/-- One `add_point` step preserves the grid invariant and cannot hit a fatal
path for an in-bounds point, provided the cell's counter does not reach the
`u32` wraparound (so the wrapping increment is a plain increment and a debug
build would not have panicked either). -/
lemma add_point_step {w h : ℕ} {seen : List (ℕ × ℕ)} {s : PixelHeatmap}
    (hs : GridInv w h seen s) {p : ℕ × ℕ} (hp1 : p.1 < w) (hp2 : p.2 < h)
    (hsmall : seen.count p + 1 < 2 ^ 32) :
    ∃ s', s.add_point p = some s' ∧ GridInv w h (seen ++ [p]) s' := by
  obtain ⟨hw, hh, hlen, hmax, hcnt⟩ := hs
  have hidx : p.1 + p.2 * w < s.heatmap.length := by
    rw [hlen]
    exact cell_index_lt _ _ hp1 hp2
  have hgi : s.get_pixel_index p = some (p.1 + p.2 * w) := by
    unfold PixelHeatmap.get_pixel_index
    rw [if_neg (by omega), hw]
  have hget : s.heatmap.get ⟨p.1 + p.2 * w, hidx⟩ = seen.count p := by
    have := hcnt p hp1 hp2
    rw [List.getD_eq_getElem?_getD, List.getElem?_eq_getElem hidx] at this
    simpa using this
  have hwrap : u32_wrapping_add_one (s.heatmap.get ⟨p.1 + p.2 * w, hidx⟩)
      = s.heatmap.get ⟨p.1 + p.2 * w, hidx⟩ + 1 := by
    unfold u32_wrapping_add_one
    rw [hget]
    exact Nat.mod_eq_of_lt hsmall
  refine ⟨{ s with
      heatmap := s.heatmap.set (p.1 + p.2 * w)
        (u32_wrapping_add_one (s.heatmap.get ⟨p.1 + p.2 * w, hidx⟩)),
      max_value := Max.max s.max_value
        (u32_wrapping_add_one (s.heatmap.get ⟨p.1 + p.2 * w, hidx⟩)) },
    ?_, ?_⟩
  · unfold PixelHeatmap.add_point
    rw [hgi]
    dsimp only
    rw [dif_pos hidx]
  · rw [hwrap]
    refine ⟨hw, hh, by simp [hlen], ?_, ?_⟩
    · show Max.max s.max_value _ = listMax (s.heatmap.set _ _)
      rw [listMax_set s.heatmap _ _ hidx (Nat.le_succ _), hmax]
    · intro q hq1 hq2
      show (s.heatmap.set (p.1 + p.2 * w) _).getD (q.1 + q.2 * w) 0
        = (seen ++ [p]).count q
      rw [List.getD_eq_getElem?_getD, List.getElem?_set]
      by_cases hqp : q = p
      · subst hqp
        rw [if_pos rfl, if_pos hidx]
        simp only [Option.getD_some, hget]
        simp [List.count_append, List.count_cons]
      · have hne : p.1 + p.2 * w ≠ q.1 + q.2 * w := by
          intro hc
          exact hqp (cell_index_inj hp1 hq1 hc).symm
        rw [if_neg hne]
        rw [← List.getD_eq_getElem?_getD]
        rw [hcnt q hq1 hq2]
        simp [List.count_append, List.count_cons, hqp]

/-- Running a list of in-bounds `add_point` calls preserves the invariant,
while the total history stays below the `u32` wraparound. -/
lemma runAdds_inv {w h : ℕ} (ps : List (ℕ × ℕ)) :
    ∀ (seen : List (ℕ × ℕ)) (s : PixelHeatmap), GridInv w h seen s →
    (∀ p ∈ ps, p.1 < w ∧ p.2 < h) →
    seen.length + ps.length < 2 ^ 32 →
    ∃ s', s.runAdds ps = some s' ∧ GridInv w h (seen ++ ps) s' := by
  induction ps with
  | nil => exact fun seen s hs _ _ => ⟨s, rfl, by simpa using hs⟩
  | cons p ps ih =>
    intro seen s hs hps htotal
    have hsmall : seen.count p + 1 < 2 ^ 32 := by
      have := List.count_le_length p seen
      simp only [List.length_cons] at htotal
      omega
    obtain ⟨s1, h1, hs1⟩ :=
      add_point_step hs (hps p (by simp)).1 (hps p (by simp)).2 hsmall
    obtain ⟨s', h', hs'⟩ := ih (seen ++ [p]) s1 hs1 (fun q hq => hps q (by simp [hq]))
      (by simp only [List.length_append, List.length_singleton, List.length_nil,
            List.length_cons] at htotal ⊢; omega)
    refine ⟨s', ?_, by simpa using hs'⟩
    unfold PixelHeatmap.runAdds
    rw [h1]
    exact h'

/-- The fresh grid satisfies the invariant for the empty history. -/
lemma gridInv_fresh (w h : ℕ) (d t : Bool) :
    GridInv w h [] (PixelHeatmap.from' w h d t) := by
  refine ⟨rfl, rfl, by simp [PixelHeatmap.from'], ?_, ?_⟩
  · show (0 : ℕ) = listMax (List.replicate (w * h) 0)
    rw [listMax_replicate_zero]
  · intro q hq1 hq2
    show (List.replicate (w * h) 0).getD (q.1 + q.2 * w) 0 = List.count q []
    rw [List.getD_eq_getElem?_getD, List.getElem?_replicate,
      if_pos (cell_index_lt _ _ hq1 hq2)]
    rfl

/-- C4: on a freshly constructed grid, any sequence of in-bounds `add_point`
calls (no decay interleaved, fewer than `2^32` calls so no `u32` counter
reaches the wraparound) succeeds, and afterwards `max_value` equals the
maximum counter value in the grid, each cell's counter being exactly the
number of `add_point` calls at that cell (so k calls at k distinct cells give
`max_value = 1`, and 5 calls at one cell plus 2 at another give
`max_value = 5`); `max_value` is maintained incrementally by `add_point`
alone, never by rescanning. -/
theorem add_point_max_value (w h : ℕ) (ps : List (ℕ × ℕ))
    (hps : ∀ p ∈ ps, p.1 < w ∧ p.2 < h) (hlen : ps.length < 2 ^ 32) :
    ∃ s, (PixelHeatmap.from' w h false false).runAdds ps = some s
      ∧ s.max_value = listMax s.heatmap
      ∧ ∀ q : ℕ × ℕ, q.1 < w → q.2 < h →
          s.heatmap.getD (q.1 + q.2 * w) 0 = ps.count q := by
  obtain ⟨s, hrun, hinv⟩ := runAdds_inv ps [] _ (gridInv_fresh w h false false) hps
    (by simpa using hlen)
  exact ⟨s, hrun, hinv.2.2.2.1, by simpa using hinv.2.2.2.2⟩

/-- C4 witness: the 5-and-2 scenario on a 2×2 grid — the run succeeds,
`max_value` is the grid maximum, and the counters are the per-cell call
counts (concretely, `max_value = 5`). -/
theorem add_point_max_value_witness :
    (∀ p ∈ ([(0, 0), (0, 0), (0, 0), (0, 0), (0, 0), (1, 1), (1, 1)] : List (ℕ × ℕ)),
        p.1 < 2 ∧ p.2 < 2)
    ∧ ([(0, 0), (0, 0), (0, 0), (0, 0), (0, 0), (1, 1), (1, 1)]
        : List (ℕ × ℕ)).length < 2 ^ 32
    ∧ (∃ s, (PixelHeatmap.from' 2 2 false false).runAdds
          [(0, 0), (0, 0), (0, 0), (0, 0), (0, 0), (1, 1), (1, 1)] = some s
        ∧ s.max_value = listMax s.heatmap
        ∧ ∀ q : ℕ × ℕ, q.1 < 2 → q.2 < 2 →
            s.heatmap.getD (q.1 + q.2 * 2) 0
              = ([(0, 0), (0, 0), (0, 0), (0, 0), (0, 0), (1, 1), (1, 1)]
                  : List (ℕ × ℕ)).count q)
    ∧ ((PixelHeatmap.from' 2 2 false false).runAdds
          [(0, 0), (0, 0), (0, 0), (0, 0), (0, 0), (1, 1), (1, 1)]).map
            PixelHeatmap.max_value = some 5 :=
  ⟨by decide, by decide,
   add_point_max_value 2 2 [(0, 0), (0, 0), (0, 0), (0, 0), (0, 0), (1, 1), (1, 1)]
     (by decide) (by decide),
   by decide⟩


/-! ## C7: rendering -/

/-- The `log10` ratio reduces to a natural-log ratio. -/
lemma log10_ratio (a b : ℝ) : log10 a / log10 b = Real.log a / Real.log b := by
  have hlogten : Real.log 10 ≠ 0 := ne_of_gt (Real.log_pos (by norm_num))
  unfold log10
  rw [div_div_div_comm, div_self hlogten, div_one]

/-- For a counter between 1 and the maximum, the log-scale ratio lies in
(0, 1]. -/
lemma log_ratio_bounds (c m : ℕ) (h1 : 1 ≤ c) (h2 : c ≤ m) :
    0 < Real.log ((c : ℝ) + 1) / Real.log ((m : ℝ) + 1)
    ∧ Real.log ((c : ℝ) + 1) / Real.log ((m : ℝ) + 1) ≤ 1 := by
  have hc : (1 : ℝ) < (c : ℝ) + 1 := by
    have : (1 : ℝ) ≤ (c : ℝ) := by exact_mod_cast h1
    linarith
  have hm : (1 : ℝ) < (m : ℝ) + 1 := by
    have : (1 : ℝ) ≤ (m : ℝ) := by
      have := le_trans h1 h2
      exact_mod_cast this
    linarith
  have hlc : 0 < Real.log ((c : ℝ) + 1) := Real.log_pos hc
  have hlm : 0 < Real.log ((m : ℝ) + 1) := Real.log_pos hm
  have hle : Real.log ((c : ℝ) + 1) ≤ Real.log ((m : ℝ) + 1) := by
    rw [Real.log_le_log_iff (by linarith) (by linarith)]
    have : (c : ℝ) ≤ (m : ℝ) := by exact_mod_cast h2
    linarith
  exact ⟨div_pos hlc hlm, by rw [div_le_one hlm]; exact hle⟩

/-- The channel value for a counter between 1 and the maximum lies in
[6, 255] (the real heat value lies in (6, 256] and is saturating-cast). -/
lemma heat_channel_bounds (c m : ℕ) (h1 : 1 ≤ c) (h2 : c ≤ m) :
    6 ≤ heat_channel c m ∧ heat_channel c m ≤ 255 := by
  obtain ⟨hpos, hle⟩ := log_ratio_bounds c m h1 h2
  unfold heat_channel f64_as_u8
  rw [log10_ratio]
  set r := Real.log ((c : ℝ) + 1) / Real.log ((m : ℝ) + 1) with hr
  have hlow : (6 : ℝ) ≤ r * 250 + 6 := by nlinarith
  have hhigh : r * 250 + 6 ≤ 256 := by nlinarith
  constructor
  · have h6 : (6 : ℤ) ≤ ⌊r * 250 + 6⌋ := by
      rw [Int.le_floor]
      exact_mod_cast hlow
    have : (6 : ℕ) ≤ (⌊r * 250 + 6⌋).toNat := by omega
    omega
  · omega

/-- At the maximum counter the channel saturates to 255 (the real heat value
is exactly 256). -/
lemma heat_channel_top (m : ℕ) (hm : 1 ≤ m) :
    heat_channel m m = 255 := by
  have hm1 : (1 : ℝ) < (m : ℝ) + 1 := by
    have : (1 : ℝ) ≤ (m : ℝ) := by exact_mod_cast hm
    linarith
  have hlm : Real.log ((m : ℝ) + 1) ≠ 0 := ne_of_gt (Real.log_pos hm1)
  unfold heat_channel f64_as_u8
  rw [log10_ratio, div_self hlm]
  norm_num

/-- C7: `as_image` maps each counter independently: a zero counter yields the
fully transparent sample `(0, 0, 0, 0)`, a nonzero counter `c` yields
intensity and alpha channels both equal to
`(log10(c+1)/log10(max_value+1) * 250 + 6) as u8`, which for
`1 ≤ c ≤ max_value` lies in `[6, 255]` (the real value lies in `(6, 256]`,
truncated into the 0–255 channel domain) and saturates to 255 at
`c = max_value`; an all-zero grid renders as `width * height` fully
transparent samples. -/
theorem as_image_spec (s : PixelHeatmap)
    (hlen : s.heatmap.length = s.width * s.height) :
    s.as_image.length = s.width * s.height
    ∧ ((∀ c ∈ s.heatmap, c = 0) →
        s.as_image = List.replicate (s.width * s.height) (0, 0, 0, 0))
    ∧ pixel_color s.max_value 0 = (0, 0, 0, 0)
    ∧ (∀ c : ℕ, c ≠ 0 →
        pixel_color s.max_value c
          = (heat_channel c s.max_value, 0, 0, heat_channel c s.max_value))
    ∧ (∀ c : ℕ, 1 ≤ c → c ≤ s.max_value →
        6 ≤ heat_channel c s.max_value ∧ heat_channel c s.max_value ≤ 255)
    ∧ (1 ≤ s.max_value → heat_channel s.max_value s.max_value = 255) := by
  refine ⟨?_, ?_, rfl, ?_, ?_, heat_channel_top s.max_value⟩
  · rw [PixelHeatmap.as_image, List.length_map, hlen]
  · intro hz
    rw [List.eq_replicate_iff]
    refine ⟨by rw [PixelHeatmap.as_image, List.length_map, hlen], ?_⟩
    intro b hb
    obtain ⟨c, hc, hcb⟩ := List.mem_map.mp hb
    rw [← hcb, hz c hc]
    rfl
  · intro c hc
    rw [pixel_color, if_neg hc]
  · exact fun c h1 h2 => heat_channel_bounds c s.max_value h1 h2

/-- C7 witness: a 2×1 grid holding `[2, 0]` with `max_value = 2` — dimensions,
the all-zero case vacuously via the zero sample, the formula, the bounds at
`c = 1`, and saturation at the maximum. -/
theorem as_image_spec_witness :
    ((2 : ℕ) = 2 * 1)
    ∧ ((PixelHeatmap.as_image ⟨[2, 0], 1, 2, 2, false, false⟩).length = 2 * 1
       ∧ pixel_color 2 0 = (0, 0, 0, 0)
       ∧ (1 ≤ 1 → 1 ≤ 2 → 6 ≤ heat_channel 1 2 ∧ heat_channel 1 2 ≤ 255)
       ∧ (1 ≤ 2 → heat_channel 2 2 = 255)) :=
  ⟨rfl,
   (as_image_spec ⟨[2, 0], 1, 2, 2, false, false⟩ rfl).1,
   (as_image_spec ⟨[2, 0], 1, 2, 2, false, false⟩ rfl).2.2.1,
   fun h1 h2 => (as_image_spec ⟨[2, 0], 1, 2, 2, false, false⟩ rfl).2.2.2.2.1 1 h1 h2,
   (as_image_spec ⟨[2, 0], 1, 2, 2, false, false⟩ rfl).2.2.2.2.2⟩


/-! ## C6 and C8: the viewport projection -/

/-- The x-coordinate of `to_tile` is strictly monotone in the longitude. -/
lemma to_tile_x_lt (z : ℕ) {a b : ℝ} (c d : ℝ) (h : a < b) :
    (to_tile (a, c) z).1 < (to_tile (b, d) z).1 := by
  have hn : (0 : ℝ) < 2 ^ z := two_pow_pos z
  show 2 ^ z * ((a + 180) / 360) < 2 ^ z * ((b + 180) / 360)
  gcongr

/-- Weak version of `from_tile_x_lt`. -/
lemma from_tile_x_le (z : ℕ) {a b : ℝ} (c d : ℝ) (h : a ≤ b) :
    (from_tile (a, c) z).1 ≤ (from_tile (b, d) z).1 := by
  rcases lt_or_eq_of_le h with hlt | heq
  · exact le_of_lt (from_tile_x_lt z c d hlt)
  · subst heq
    exact le_of_eq rfl

/-- Weak version of `from_tile_y_lt`. -/
lemma from_tile_y_le (z : ℕ) {a b : ℝ} (c d : ℝ) (h : a ≤ b) :
    (from_tile (c, b) z).2 ≤ (from_tile (d, a) z).2 := by
  rcases lt_or_eq_of_le h with hlt | heq
  · exact le_of_lt (from_tile_y_lt z c d hlt)
  · subst heq
    exact le_of_eq rfl

/-- The tile-space corners of a constructed viewport: the normalized rectangle
centered on the center's tile projection with half-extents
`(width/TILE_SIZE/2, height/TILE_SIZE/2)`. -/
lemma tiled_corners (cx cy : ℝ) (w h z : ℕ) :
    (Map.from' cx cy w h z).extends_tiled.min
        = ((to_tile (cx, cy) z).1 - (w : ℝ) / TILE_SIZE * 0.5,
           (to_tile (cx, cy) z).2 - (h : ℝ) / TILE_SIZE * 0.5)
    ∧ (Map.from' cx cy w h z).extends_tiled.max
        = ((to_tile (cx, cy) z).1 + (w : ℝ) / TILE_SIZE * 0.5,
           (to_tile (cx, cy) z).2 + (h : ℝ) / TILE_SIZE * 0.5) := by
  have hw : (0 : ℝ) ≤ (w : ℝ) / TILE_SIZE * 0.5 := by positivity
  have hh : (0 : ℝ) ≤ (h : ℝ) / TILE_SIZE * 0.5 := by positivity
  simp only [Map.from', RectR.new]
  constructor
  · apply Prod.ext
    · show Min.min _ _ = _
      rw [min_eq_right (by linarith)]
    · show Min.min _ _ = _
      rw [min_eq_right (by linarith)]
  · apply Prod.ext
    · show Max.max _ _ = _
      rw [max_eq_left (by linarith)]
    · show Max.max _ _ = _
      rw [max_eq_left (by linarith)]

/-- The geographic corners of a constructed viewport, in terms of `from_tile`
on the tile-space corners (x from the same corner, y swapped, because
`from_tile` is decreasing in the tile y). -/
lemma coord_corners (cx cy : ℝ) (w h z : ℕ) :
    (Map.from' cx cy w h z).extends_coord.min
        = ((from_tile ((Map.from' cx cy w h z).extends_tiled.min) z).1,
           (from_tile ((Map.from' cx cy w h z).extends_tiled.max) z).2)
    ∧ (Map.from' cx cy w h z).extends_coord.max
        = ((from_tile ((Map.from' cx cy w h z).extends_tiled.max) z).1,
           (from_tile ((Map.from' cx cy w h z).extends_tiled.min) z).2) := by
  obtain ⟨hmin, hmax⟩ := tiled_corners cx cy w h z
  have hx : (Map.from' cx cy w h z).extends_tiled.min.1
      ≤ (Map.from' cx cy w h z).extends_tiled.max.1 := by
    rw [hmin, hmax]
    have : (0 : ℝ) ≤ (w : ℝ) / TILE_SIZE * 0.5 := by positivity
    dsimp only
    linarith
  have hy : (Map.from' cx cy w h z).extends_tiled.min.2
      ≤ (Map.from' cx cy w h z).extends_tiled.max.2 := by
    rw [hmin, hmax]
    have : (0 : ℝ) ≤ (h : ℝ) / TILE_SIZE * 0.5 := by positivity
    dsimp only
    linarith
  have hcoord : (Map.from' cx cy w h z).extends_coord
      = RectR.new (from_tile ((Map.from' cx cy w h z).extends_tiled.min) z)
          (from_tile ((Map.from' cx cy w h z).extends_tiled.max) z) := rfl
  have hfx : (from_tile ((Map.from' cx cy w h z).extends_tiled.min) z).1
      ≤ (from_tile ((Map.from' cx cy w h z).extends_tiled.max) z).1 :=
    from_tile_x_le z _ _ hx
  have hfy : (from_tile ((Map.from' cx cy w h z).extends_tiled.max) z).2
      ≤ (from_tile ((Map.from' cx cy w h z).extends_tiled.min) z).2 :=
    from_tile_y_le z _ _ hy
  rw [hcoord]
  constructor
  · apply Prod.ext
    · show Min.min _ _ = _
      rw [min_eq_left hfx]
    · show Min.min _ _ = _
      rw [min_eq_right hfy]
  · apply Prod.ext
    · show Max.max _ _ = _
      rw [max_eq_right hfx]
    · show Max.max _ _ = _
      rw [max_eq_left hfy]

/-- The viewport's own center is contained in its geographic extents. -/
lemma center_contained (cx cy : ℝ) (w h z : ℕ) (h1 : -90 < cy) (h2 : cy < 90)
    (hw : 0 < w) (hh : 0 < h) :
    (Map.from' cx cy w h z).extends_coord.containsPt (cx, cy) := by
  obtain ⟨hmin, hmax⟩ := tiled_corners cx cy w h z
  obtain ⟨hcmin, hcmax⟩ := coord_corners cx cy w h z
  have hwr : (0 : ℝ) < (w : ℝ) := by exact_mod_cast hw
  have hhr : (0 : ℝ) < (h : ℝ) := by exact_mod_cast hh
  have he1 : (0 : ℝ) < (w : ℝ) / TILE_SIZE * 0.5 := by
    have : (0 : ℝ) < (TILE_SIZE : ℝ) := by norm_num [TILE_SIZE]
    positivity
  have he2 : (0 : ℝ) < (h : ℝ) / TILE_SIZE * 0.5 := by
    have : (0 : ℝ) < (TILE_SIZE : ℝ) := by norm_num [TILE_SIZE]
    positivity
  have hrt : from_tile (to_tile (cx, cy) z) z = (cx, cy) :=
    from_tile_to_tile (cx, cy) z h1 h2
  have hrt1 : (from_tile ((to_tile (cx, cy) z).1, (to_tile (cx, cy) z).2) z).1 = cx := by
    rw [Prod.mk.eta, hrt]
  have hrt2 : (from_tile ((to_tile (cx, cy) z).1, (to_tile (cx, cy) z).2) z).2 = cy := by
    rw [Prod.mk.eta, hrt]
  refine ⟨?_, ?_, ?_, ?_⟩
  · have hlt := from_tile_x_lt z
      ((to_tile (cx, cy) z).2 - (h : ℝ) / TILE_SIZE * 0.5) ((to_tile (cx, cy) z).2)
      (show (to_tile (cx, cy) z).1 - (w : ℝ) / TILE_SIZE * 0.5 < (to_tile (cx, cy) z).1
        by linarith)
    rw [hrt1] at hlt
    show (Map.from' cx cy w h z).extends_coord.min.1 < cx
    rw [hcmin]
    dsimp only
    rw [hmin]
    exact hlt
  · have hlt := from_tile_x_lt z
      ((to_tile (cx, cy) z).2) ((to_tile (cx, cy) z).2 + (h : ℝ) / TILE_SIZE * 0.5)
      (show (to_tile (cx, cy) z).1 < (to_tile (cx, cy) z).1 + (w : ℝ) / TILE_SIZE * 0.5
        by linarith)
    rw [hrt1] at hlt
    show cx < (Map.from' cx cy w h z).extends_coord.max.1
    rw [hcmax]
    dsimp only
    rw [hmax]
    exact hlt
  · have hlt := from_tile_y_lt z
      ((to_tile (cx, cy) z).1 + (w : ℝ) / TILE_SIZE * 0.5) ((to_tile (cx, cy) z).1)
      (show (to_tile (cx, cy) z).2 < (to_tile (cx, cy) z).2 + (h : ℝ) / TILE_SIZE * 0.5
        by linarith)
    rw [hrt2] at hlt
    show (Map.from' cx cy w h z).extends_coord.min.2 < cy
    rw [hcmin]
    dsimp only
    rw [hmax]
    exact hlt
  · have hlt := from_tile_y_lt z
      ((to_tile (cx, cy) z).1) ((to_tile (cx, cy) z).1 - (w : ℝ) / TILE_SIZE * 0.5)
      (show (to_tile (cx, cy) z).2 - (h : ℝ) / TILE_SIZE * 0.5 < (to_tile (cx, cy) z).2
        by linarith)
    rw [hrt2] at hlt
    show cy < (Map.from' cx cy w h z).extends_coord.max.2
    rw [hcmax]
    dsimp only
    rw [hmin]
    exact hlt


/-- A point contained in the geographic extents projects, in tile space,
strictly inside the tile-space extents. -/
lemma contains_tile_bounds (cx cy : ℝ) (w h z : ℕ) {p : ℝ × ℝ}
    (hc : (Map.from' cx cy w h z).extends_coord.containsPt p) :
    (Map.from' cx cy w h z).extends_tiled.min.1 < (to_tile p z).1
    ∧ (to_tile p z).1 < (Map.from' cx cy w h z).extends_tiled.max.1
    ∧ (Map.from' cx cy w h z).extends_tiled.min.2 < (to_tile p z).2
    ∧ (to_tile p z).2 < (Map.from' cx cy w h z).extends_tiled.max.2 := by
  obtain ⟨hcmin, hcmax⟩ := coord_corners cx cy w h z
  obtain ⟨hc1, hc2, hc3, hc4⟩ := hc
  rw [hcmin] at hc1 hc3
  rw [hcmax] at hc2 hc4
  dsimp only at hc1 hc2 hc3 hc4
  have hbmin := from_tile_lat_bounds ((Map.from' cx cy w h z).extends_tiled.min) z
  have hbmax := from_tile_lat_bounds ((Map.from' cx cy w h z).extends_tiled.max) z
  refine ⟨?_, ?_, ?_, ?_⟩
  · have hlt := to_tile_x_lt z
      ((from_tile ((Map.from' cx cy w h z).extends_tiled.min) z).2) p.2 hc1
    simp only [Prod.mk.eta] at hlt
    rw [to_tile_from_tile] at hlt
    exact hlt
  · have hlt := to_tile_x_lt z
      p.2 ((from_tile ((Map.from' cx cy w h z).extends_tiled.max) z).2) hc2
    simp only [Prod.mk.eta] at hlt
    rw [to_tile_from_tile] at hlt
    exact hlt
  · have hlt := to_tile_y_lt z
      ((from_tile ((Map.from' cx cy w h z).extends_tiled.min) z).1) p.1
      (lt_trans hbmax.1 hc3) hbmin.2 hc4
    simp only [Prod.mk.eta] at hlt
    rw [to_tile_from_tile] at hlt
    exact hlt
  · have hlt := to_tile_y_lt z
      p.1 ((from_tile ((Map.from' cx cy w h z).extends_tiled.max) z).1)
      hbmax.1 (lt_trans hc4 hbmin.2) hc3
    simp only [Prod.mk.eta] at hlt
    rw [to_tile_from_tile] at hlt
    exact hlt

/-- C6: `Map::to_pixels` returns `None` exactly when the point fails the
rectangle-contains test against the viewport's geographic extents (`geo`'s
`Rect`-contains, which tests the interior), otherwise `Some` of the pixel
offset `(to_tile p zoom - tile-space minimum) * 256` with each component
truncated to an unsigned integer; and it returns `Some` for the viewport's
own center. -/
theorem to_pixels_spec (cx cy : ℝ) (w h z : ℕ) (h1 : -90 < cy) (h2 : cy < 90)
    (hw : 0 < w) (hh : 0 < h) :
    (∀ p : ℝ × ℝ, (Map.from' cx cy w h z).to_pixels p = none
        ↔ ¬ (Map.from' cx cy w h z).extends_coord.containsPt p)
    ∧ (∀ p : ℝ × ℝ, (Map.from' cx cy w h z).extends_coord.containsPt p →
        (Map.from' cx cy w h z).to_pixels p
          = some (f64_as_u32 (((to_tile p z).1
                - (Map.from' cx cy w h z).extends_tiled.min.1) * TILE_SIZE),
              f64_as_u32 (((to_tile p z).2
                - (Map.from' cx cy w h z).extends_tiled.min.2) * TILE_SIZE)))
    ∧ ((Map.from' cx cy w h z).to_pixels (cx, cy)).isSome = true := by
  refine ⟨?_, ?_, ?_⟩
  · intro p
    unfold Map.to_pixels
    by_cases hc : (Map.from' cx cy w h z).extends_coord.containsPt p
    · simp [hc]
    · simp [hc]
  · intro p hc
    unfold Map.to_pixels
    rw [if_pos hc]
    rfl
  · unfold Map.to_pixels
    rw [if_pos (center_contained cx cy w h z h1 h2 hw hh)]
    rfl

/-- C6 witness: the viewport centered on the origin at zoom 0. -/
theorem to_pixels_spec_witness :
    ((-90 : ℝ) < 0 ∧ (0 : ℝ) < 90 ∧ (0 : ℕ) < 256)
    ∧ ((Map.from' 0 0 256 256 0).to_pixels (0, 0)).isSome = true :=
  ⟨⟨by norm_num, by norm_num, by norm_num⟩,
   (to_pixels_spec 0 0 256 256 0 (by norm_num) (by norm_num)
     (by norm_num) (by norm_num)).2.2⟩

/-- C8: every cell returned as `Some` by `Map::to_pixels` lies within the
grid bounds of the pixel heatmap built for that viewport (`x < width` and
`y < height`), so `add_point` cannot hit the `None` branch of
`get_pixel_mut` (nor the vector-index panic) for a cell obtained from the
projection. -/
theorem to_pixels_in_grid_bounds (cx cy : ℝ) (w h z : ℕ) (p : ℝ × ℝ) (c : ℕ × ℕ)
    (hc : (Map.from' cx cy w h z).to_pixels p = some c) :
    (c.1 < w ∧ c.2 < h)
    ∧ ∀ s : PixelHeatmap, s.width = w → s.height = h →
        s.heatmap.length = w * h → s.add_point c ≠ none := by
  have hTS : ((TILE_SIZE : ℕ) : ℝ) = 256 := by norm_num [TILE_SIZE]
  unfold Map.to_pixels at hc
  by_cases hcont : (Map.from' cx cy w h z).extends_coord.containsPt p
  case neg =>
    rw [if_neg hcont] at hc
    cases hc
  rw [if_pos hcont] at hc
  obtain ⟨hb1, hb2, hb3, hb4⟩ := contains_tile_bounds cx cy w h z hcont
  obtain ⟨hmin, hmax⟩ := tiled_corners cx cy w h z
  rw [hmin] at hb1 hb3 hc
  rw [hmax] at hb2 hb4
  have hz0 : (Map.from' cx cy w h z).zoom = z := rfl
  rw [hz0] at hc
  dsimp only at hb1 hb2 hb3 hb4 hc
  rw [hTS] at hb1 hb2 hb3 hb4
  injection hc with hc
  subst hc
  rw [hTS]
  have hwpos : (0 : ℝ) < (w : ℝ) := by linarith
  have hhpos : (0 : ℝ) < (h : ℝ) := by linarith
  have hwn : 0 < w := by exact_mod_cast hwpos
  have hhn : 0 < h := by exact_mod_cast hhpos
  have hxr : ((to_tile p z).1 - ((to_tile (cx, cy) z).1 - (w : ℝ) / 256 * 0.5)) * 256
      < (w : ℝ) := by linarith
  have hyr : ((to_tile p z).2 - ((to_tile (cx, cy) z).2 - (h : ℝ) / 256 * 0.5)) * 256
      < (h : ℝ) := by linarith
  have hfx : f64_as_u32
      (((to_tile p z).1 - ((to_tile (cx, cy) z).1 - (w : ℝ) / 256 * 0.5)) * 256) < w := by
    unfold f64_as_u32
    have hfl : ⌊((to_tile p z).1 - ((to_tile (cx, cy) z).1 - (w : ℝ) / 256 * 0.5)) * 256⌋
        < (w : ℤ) := Int.floor_lt.mpr (by push_cast; linarith)
    have : (⌊((to_tile p z).1 - ((to_tile (cx, cy) z).1 - (w : ℝ) / 256 * 0.5)) * 256⌋).toNat
        < w := by omega
    exact lt_of_le_of_lt (Nat.min_le_left _ _) this
  have hfy : f64_as_u32
      (((to_tile p z).2 - ((to_tile (cx, cy) z).2 - (h : ℝ) / 256 * 0.5)) * 256) < h := by
    unfold f64_as_u32
    have hfl : ⌊((to_tile p z).2 - ((to_tile (cx, cy) z).2 - (h : ℝ) / 256 * 0.5)) * 256⌋
        < (h : ℤ) := Int.floor_lt.mpr (by push_cast; linarith)
    have : (⌊((to_tile p z).2 - ((to_tile (cx, cy) z).2 - (h : ℝ) / 256 * 0.5)) * 256⌋).toNat
        < h := by omega
    exact lt_of_le_of_lt (Nat.min_le_left _ _) this
  refine ⟨⟨hfx, hfy⟩, ?_⟩
  intro s hsw hsh hslen
  have hbound : ¬ (s.width ≤ f64_as_u32
        (((to_tile p z).1 - ((to_tile (cx, cy) z).1 - (w : ℝ) / 256 * 0.5)) * 256)
      ∨ s.height ≤ f64_as_u32
        (((to_tile p z).2 - ((to_tile (cx, cy) z).2 - (h : ℝ) / 256 * 0.5)) * 256)) := by
    rw [hsw, hsh]
    omega
  have hgi : s.get_pixel_index
      (f64_as_u32 (((to_tile p z).1 - ((to_tile (cx, cy) z).1 - (w : ℝ) / 256 * 0.5)) * 256),
       f64_as_u32 (((to_tile p z).2 - ((to_tile (cx, cy) z).2 - (h : ℝ) / 256 * 0.5)) * 256))
      = some (f64_as_u32
          (((to_tile p z).1 - ((to_tile (cx, cy) z).1 - (w : ℝ) / 256 * 0.5)) * 256)
        + f64_as_u32
          (((to_tile p z).2 - ((to_tile (cx, cy) z).2 - (h : ℝ) / 256 * 0.5)) * 256) * w) := by
    unfold PixelHeatmap.get_pixel_index
    rw [if_neg hbound, hsw]
  unfold PixelHeatmap.add_point
  rw [hgi]
  dsimp only
  rw [dif_pos (by rw [hslen]; exact cell_index_lt _ _ hfx hfy)]
  simp

/-- Concrete evaluation of the projection at the origin viewport: the center
of a 256×256 viewport at zoom 0 lands on pixel (128, 128). -/
lemma to_pixels_origin_eval :
    (Map.from' 0 0 256 256 0).to_pixels (0, 0) = some (128, 128) := by
  have hcont := center_contained 0 0 256 256 0 (by norm_num) (by norm_num)
    (by norm_num) (by norm_num)
  have hct : to_tile ((0 : ℝ), (0 : ℝ)) 0 = (0.5, 0.5) := by
    unfold to_tile
    apply Prod.ext
    · show (2 : ℝ) ^ 0 * ((0 + 180) / 360) = 0.5
      norm_num
    · show (2 : ℝ) ^ 0 * (1 - Real.arsinh (Real.tan (0 * (Real.pi / 180))) / Real.pi) * 0.5
        = 0.5
      rw [zero_mul, Real.tan_zero, Real.arsinh_zero]
      simp
  have hmin := (tiled_corners 0 0 256 256 0).1
  rw [hct] at hmin
  have hmin0 : (Map.from' 0 0 256 256 0).extends_tiled.min = ((0 : ℝ), (0 : ℝ)) := by
    rw [hmin]
    apply Prod.ext
    · show (0.5 : ℝ) - (256 : ℕ) / (TILE_SIZE : ℝ) * 0.5 = 0
      norm_num [TILE_SIZE]
    · show (0.5 : ℝ) - (256 : ℕ) / (TILE_SIZE : ℝ) * 0.5 = 0
      norm_num [TILE_SIZE]
  have hz0 : (Map.from' 0 0 256 256 0).zoom = 0 := rfl
  unfold Map.to_pixels
  rw [if_pos hcont, hz0, hct, hmin0]
  dsimp only
  have harg : ((0.5 : ℝ) - 0) * (TILE_SIZE : ℝ) = 128 := by norm_num [TILE_SIZE]
  rw [harg]
  have hval : f64_as_u32 128 = 128 := by
    unfold f64_as_u32
    have h128 : (128 : ℝ) = ((128 : ℕ) : ℝ) := by norm_num
    rw [h128, Int.floor_natCast]
    decide
  rw [hval]

/-- C8 witness: the origin viewport's center projects to (128, 128), which is
inside the 256×256 grid and safe for `add_point`. -/
theorem to_pixels_in_grid_bounds_witness :
    (Map.from' 0 0 256 256 0).to_pixels (0, 0) = some (128, 128)
    ∧ ((128 < 256 ∧ 128 < 256)
       ∧ ∀ s : PixelHeatmap, s.width = 256 → s.height = 256 →
           s.heatmap.length = 256 * 256 → s.add_point (128, 128) ≠ none) :=
  ⟨to_pixels_origin_eval,
   to_pixels_in_grid_bounds 0 0 256 256 0 (0, 0) (128, 128) to_pixels_origin_eval⟩

end Derive
